import Mathlib

/-!
Verification of the Learned Secondary Index (LSI) core against its
natural-language specification.

The definitions below are a shallow embedding of
`src/include/lsi.hpp` (class `LearnedSecondaryIndex`) and
`src/include/util/permvector.hpp` (class `PermVector`), specialised to
`fingerprint_size = 0` (the configuration all analysed claims are about;
with zero fingerprint bits the fingerprint test is identically true and
never filters a candidate).

Machine integers (`size_t` / `uint64_t`) are modelled as `ℕ`; the single
place where unsigned wrap-around is reachable (`pred + max_error + 1`)
carries an explicit `% 2 ^ 64`.  The subtraction
`pred - std::min(pred, max_error)` has its subtrahend bounded by its
minuend, so truncated `ℕ` subtraction is exactly the `uint64_t` result.

Reads of the base relation go through `Option`: `none` marks an
out-of-bounds access, i.e. undefined behaviour of the C++ code.

The external CDF model is opaque in the source (`Model::operator()`), so
it is a parameter `model : ℕ → ℕ` throughout.  `std::sort` (lsi.hpp:161)
is specified by the C++ standard only up to its postcondition, so the
sorted buffer is universally quantified subject to `SortOutput`.
-/

/-- The `(key, original position)` pairs pushed by the displacement loop in
`fit` (lsi.hpp:153-158), starting the position counter at `i`. -/
def pairsFrom (i : ℕ) : List ℕ → List (ℕ × ℕ)
  | [] => []
  | x :: xs => (x, i) :: pairsFrom (i + 1) xs

/-- The displacement vector built by `fit` before sorting: positions start
at 0 in input order. -/
def pairsOf (data : List ℕ) : List (ℕ × ℕ) :=
  pairsFrom 0 data

/-- Postcondition of the `std::sort` call in `fit` (lsi.hpp:160-163): the
result is a permutation of the displacement vector that is sorted by the
comparator `d1.first < d2.first`.  `std::sort` is not stable, so nothing
more is guaranteed about the order of pairs with equal keys. -/
def SortOutput (data : List ℕ) (s : List (ℕ × ℕ)) : Prop :=
  s.Perm (pairsOf data) ∧ List.Pairwise (fun a b : ℕ × ℕ => a.1 ≤ b.1) s

/-- Keys of the sorted displacement vector, in rank order
(`PairIter<true>`, lsi.hpp:174-175). -/
def keysOf (s : List (ℕ × ℕ)) : List ℕ :=
  s.map Prod.fst

/-- Offsets stored into the permutation vector, in rank order
(`PairIter<false>` fed to `_perm_vector.build`, lsi.hpp:166-169). -/
def pvOf (s : List (ℕ × ℕ)) : List ℕ :=
  s.map Prod.snd

/-- The max-error loop of `fit` (lsi.hpp:181-193).  State: `j` is the loop
index, `clb` is `current_lower_bound`, `me` is the running `max_error`. -/
def meAux (keys : List ℕ) (model : ℕ → ℕ) (j clb me : ℕ) : ℕ :=
  if _hj : j < keys.length then
    let clb2 := if keys.getD clb 0 ≠ keys.getD j 0 then j else clb
    let pred := model (keys.getD j 0)
    meAux keys model (j + 1) clb2 (max me (max pred clb2 - min pred clb2))
  else me
termination_by keys.length - j
decreasing_by omega

/-- `max_error` as computed at the end of `fit` (lsi.hpp:181-193). -/
def fitMaxError (keys : List ℕ) (model : ℕ → ℕ) : ℕ :=
  meAux keys model 0 0 0

/-- Modulus of `uint64_t` / 64-bit `size_t` arithmetic. -/
def W64 : ℕ := 2 ^ 64

/-- Start of the search interval (lsi.hpp:323-324):
`pred - std::min(pred, max_error)`.  The subtrahend never exceeds `pred`,
so the unsigned subtraction cannot wrap and equals `ℕ` subtraction. -/
def searchLo (pred me : ℕ) : ℕ :=
  pred - min pred me

/-- Exclusive end of the search interval (lsi.hpp:327):
`std::min(pred + max_error + 1, _perm_vector.size())`, with the addition
performed in `uint64_t`. -/
def searchHi (pred me n : ℕ) : ℕ :=
  min ((pred + me + 1) % W64) n

/-- One read of the base relation through the permutation vector:
`*(begin + _perm_vector[i].index)`.  `none` marks an out-of-bounds access
(undefined behaviour in the C++). -/
def probe (base pv : List ℕ) (i : ℕ) : Option ℕ :=
  pv[i]?.bind fun p => base[p]?

theorem probe_some_lt {base pv : List ℕ} {i v : ℕ}
    (h : probe base pv i = some v) : i < pv.length := by
  unfold probe at h
  rcases hp : pv[i]? with _ | p
  · rw [hp] at h; simp at h
  · exact (List.getElem?_eq_some_iff.mp hp).1

/-- The binary-search loop of `lookup` (lsi.hpp:365-376).  Returns the
final `start_i` together with the number of `incr_base_accesses()` calls
(which in this loop equals the number of base reads). -/
def binSearchGo (base pv : List ℕ) (k lo hi c : ℕ) : Option (ℕ × ℕ) :=
  if lo < hi then
    let mid := lo + (hi - lo) / 2
    match probe base pv mid with
    | none => none
    | some v =>
      if v < k then binSearchGo base pv k (mid + 1) hi (c + 1)
      else binSearchGo base pv k lo mid (c + 1)
  else some (lo, c)
termination_by hi - lo
decreasing_by all_goals omega

/-- The lower-bound completion walk (lsi.hpp:351-355 and 380-384):
`while (ind != end() && *(begin + *ind) < key) { incr_base_accesses(); ind++; }`.
`c` counts `incr_base_accesses()` calls, `rd` counts base reads; the read
in the final, failing loop test is performed but not counted. -/
def lbWalkGo (base pv : List ℕ) (k i c rd : ℕ) : Option (ℕ × ℕ × ℕ) :=
  if i = pv.length then some (i, c, rd)
  else
    match hp : probe base pv i with
    | none => none
    | some v =>
      if v < k then lbWalkGo base pv k (i + 1) (c + 1) (rd + 1)
      else some (i, c, rd + 1)
termination_by pv.length - i
decreasing_by
  have := probe_some_lt hp
  omega

/-- The equality final check (lsi.hpp:356-360 and 385-389):
`if (*(begin + *ind) != key) return end(); return ind;`.  The rank of
`end()` is `pv.length`; the read is performed without incrementing
`base_data_accesses`. -/
def eqFinish (base pv : List ℕ) (k i c rd : ℕ) : Option (ℕ × ℕ × ℕ) :=
  match probe base pv i with
  | none => none
  | some v => if v ≠ k then some (pv.length, c, rd + 1) else some (i, c, rd + 1)

/-- The bounded linear scan of `lookup` (lsi.hpp:331-349) with
`fingerprint_size = 0` (the fingerprint test is identically true).
State: `i` is the rank of `ind`, `c` counts `incr_base_accesses()`,
`fp` counts `incr_false_positives()`, `rd` counts base reads. -/
def linScanGo (base pv : List ℕ) (k stop i c fp rd : ℕ) : Option (ℕ × ℕ × ℕ × ℕ) :=
  if i < stop then
    match probe base pv i with
    | none => none
    | some v =>
      if k ≤ v then some (i, c + 1, fp, rd + 1)
      else linScanGo base pv k stop (i + 1) (c + 1) (fp + 1) (rd + 1)
  else some (i, c, fp, rd)
termination_by stop - i
decreasing_by omega

/-- `LearnedSecondaryIndex::lookup` (lsi.hpp:299-393) with
`fingerprint_size = 0`.  `linear` selects the
`force_linear_search || fingerprint_size > 0` branch, `lb` is the
`lowerbound` template argument.  Returns
`(rank of the returned iterator, base_data_accesses increments,
false_positive_accesses increments, base reads performed)`, or `none` if
an out-of-bounds read (undefined behaviour) was reached. -/
def lookup (linear lb : Bool) (base pv : List ℕ) (model : ℕ → ℕ) (me k : ℕ) :
    Option (ℕ × ℕ × ℕ × ℕ) :=
  let pred := model k
  let lo := searchLo pred me
  let hi := searchHi pred me pv.length
  if linear then
    match linScanGo base pv k hi lo 0 0 0 with
    | none => none
    | some (i, c, fp, rd) =>
      if lb then (lbWalkGo base pv k i c rd).map fun x => (x.1, x.2.1, fp, x.2.2)
      else (eqFinish base pv k i c rd).map fun x => (x.1, x.2.1, fp, x.2.2)
  else
    match binSearchGo base pv k lo hi 0 with
    | none => none
    | some (st, c) =>
      if lb then (lbWalkGo base pv k st c c).map fun x => (x.1, x.2.1, 0, x.2.2)
      else (eqFinish base pv k st c c).map fun x => (x.1, x.2.1, 0, x.2.2)

/-- Rank of the iterator returned by a lookup. -/
def rankOf (o : Option (ℕ × ℕ × ℕ × ℕ)) : Option ℕ :=
  o.map fun x => x.1

/-- Specification vocabulary: rank of the first entry whose key is `≥ k`
(the lower-bound rank); equals the length when every key is smaller. -/
def lbRank (k : ℕ) : List ℕ → ℕ
  | [] => 0
  | v :: vs => if k ≤ v then 0 else lbRank k vs + 1

/-- Specification vocabulary: rank of the first entry whose key equals
`k` (the first rank of `k`); equals the length when `k` is absent. -/
def firstRank (k : ℕ) : List ℕ → ℕ
  | [] => 0
  | v :: vs => if v = k then 0 else firstRank k vs + 1

/-! ## Basic facts about the displacement pairs and the sort postcondition -/

theorem pairsFrom_length (i : ℕ) (l : List ℕ) : (pairsFrom i l).length = l.length := by
  induction l generalizing i with
  | nil => rfl
  | cons x xs ih => simp [pairsFrom, ih]

theorem keysOf_pairsFrom (i : ℕ) (l : List ℕ) : keysOf (pairsFrom i l) = l := by
  induction l generalizing i with
  | nil => rfl
  | cons x xs ih => simp only [pairsFrom, keysOf, List.map_cons]; exact congrArg _ (ih _)

theorem pvOf_pairsFrom (i : ℕ) (l : List ℕ) : pvOf (pairsFrom i l) = List.range' i l.length := by
  induction l generalizing i with
  | nil => rfl
  | cons x xs ih =>
    simp only [pairsFrom, pvOf, List.map_cons, List.length_cons, List.range'_succ]
    exact congrArg _ (ih _)

theorem mem_pairsFrom {p : ℕ × ℕ} {i : ℕ} {l : List ℕ} (h : p ∈ pairsFrom i l) :
    i ≤ p.2 ∧ l[p.2 - i]? = some p.1 := by
  induction l generalizing i with
  | nil => simp [pairsFrom] at h
  | cons x xs ih =>
    simp only [pairsFrom, List.mem_cons] at h
    rcases h with h | h
    · subst h; simp
    · obtain ⟨h1, h2⟩ := ih h
      refine ⟨by omega, ?_⟩
      have hx : p.2 - i = (p.2 - (i + 1)) + 1 := by omega
      rw [hx]
      simpa using h2

theorem mem_pairsOf {p : ℕ × ℕ} {data : List ℕ} (h : p ∈ pairsOf data) :
    data[p.2]? = some p.1 := by
  have hm := mem_pairsFrom (i := 0) h
  simpa using hm.2

theorem keysOf_length (s : List (ℕ × ℕ)) : (keysOf s).length = s.length :=
  List.length_map s Prod.fst

theorem pvOf_length (s : List (ℕ × ℕ)) : (pvOf s).length = s.length :=
  List.length_map s Prod.snd

theorem SortOutput.length_eq {data : List ℕ} {s : List (ℕ × ℕ)}
    (h : SortOutput data s) : s.length = data.length := by
  have := h.1.length_eq
  rwa [pairsOf, pairsFrom_length] at this

theorem SortOutput.keys_perm {data : List ℕ} {s : List (ℕ × ℕ)}
    (h : SortOutput data s) : (keysOf s).Perm data := by
  have := h.1.map Prod.fst
  rwa [show (pairsOf data).map Prod.fst = data from keysOf_pairsFrom 0 data] at this

theorem SortOutput.keys_sorted {data : List ℕ} {s : List (ℕ × ℕ)}
    (h : SortOutput data s) : List.Pairwise (· ≤ ·) (keysOf s) :=
  h.2.map Prod.fst (fun _ _ hab => hab)

/-- Reading the base relation through a rank `r < N` of a fitted
permutation vector yields the key at rank `r` of the sorted buffer. -/
theorem probe_fit {data : List ℕ} {s : List (ℕ × ℕ)} (h : SortOutput data s)
    {r : ℕ} (hr : r < s.length) :
    probe data (pvOf s) r = some ((keysOf s).getD r 0) := by
  have hmem : s[r] ∈ pairsOf data := h.1.mem_iff.mp (List.getElem_mem hr)
  have hd := mem_pairsOf hmem
  have hpv : (pvOf s)[r]? = some s[r].2 := by
    rw [pvOf, List.getElem?_map, List.getElem?_eq_some_iff.mpr ⟨hr, rfl⟩]
    rfl
  have hkey : (keysOf s).getD r 0 = s[r].1 := by
    rw [keysOf, List.getD_eq_getElem?_getD, List.getElem?_map,
      List.getElem?_eq_some_iff.mpr ⟨hr, rfl⟩]
    rfl
  rw [probe, hpv, hkey]
  simpa using hd

/-- Reading at a rank at or past `N` dereferences the permutation vector
out of bounds. -/
theorem probe_oob {base : List ℕ} {s : List (ℕ × ℕ)} {r : ℕ}
    (hr : s.length ≤ r) : probe base (pvOf s) r = none := by
  rw [probe, List.getElem?_eq_none_iff.mpr (by rwa [pvOf_length])]
  rfl

theorem keyAt_mono {data : List ℕ} {s : List (ℕ × ℕ)} (h : SortOutput data s)
    {i j : ℕ} (hij : i ≤ j) (hj : j < s.length) :
    (keysOf s).getD i 0 ≤ (keysOf s).getD j 0 := by
  rcases Nat.eq_or_lt_of_le hij with heq | hlt
  · exact heq ▸ le_refl _
  · have hj2 : j < (keysOf s).length := by rwa [keysOf_length]
    have hi2 : i < (keysOf s).length := by omega
    rw [List.getD_eq_getElem _ _ hi2, List.getD_eq_getElem _ _ hj2]
    exact List.pairwise_iff_getElem.mp h.keys_sorted i j hi2 hj2 hlt

theorem getD_mem {l : List ℕ} {i : ℕ} (hi : i < l.length) : l.getD i 0 ∈ l := by
  rw [List.getD_eq_getElem _ _ hi]
  exact List.getElem_mem hi

/-! ## Facts about the specification ranks `lbRank` and `firstRank` -/

theorem lbRank_le_length (k : ℕ) (l : List ℕ) : lbRank k l ≤ l.length := by
  induction l with
  | nil => simp [lbRank]
  | cons v vs ih =>
    simp only [lbRank, List.length_cons]
    split
    · omega
    · exact Nat.succ_le_succ ih

theorem lbRank_key (k : ℕ) (l : List ℕ) (h : lbRank k l < l.length) :
    k ≤ l.getD (lbRank k l) 0 := by
  induction l with
  | nil => simp at h
  | cons v vs ih =>
    simp only [lbRank, List.length_cons] at h ⊢
    split
    · simpa
    · next hv =>
      rw [if_neg hv] at h
      simp only [List.getD_cons_succ]
      exact ih (by omega)

theorem lt_lbRank_key (k : ℕ) (l : List ℕ) {i : ℕ} (h : i < lbRank k l) :
    l.getD i 0 < k := by
  induction l generalizing i with
  | nil => simp [lbRank] at h
  | cons v vs ih =>
    simp only [lbRank] at h
    rcases hv : decide (k ≤ v) with _ | _
    · simp only [decide_eq_false_iff_not, not_le] at hv
      rw [if_neg (by omega)] at h
      match i with
      | 0 => simpa using hv
      | i + 1 =>
        simp only [List.getD_cons_succ]
        exact ih (by omega)
    · simp only [decide_eq_true_eq] at hv
      rw [if_pos hv] at h
      omega

theorem lbRank_eq_length (k : ℕ) (l : List ℕ) (h : ∀ v ∈ l, v < k) :
    lbRank k l = l.length := by
  induction l with
  | nil => rfl
  | cons v vs ih =>
    have hv := h v (by simp)
    simp only [lbRank, if_neg (by omega : ¬k ≤ v), List.length_cons]
    exact congrArg _ (ih fun w hw => h w (by simp [hw]))

theorem lbRank_lt_length (k : ℕ) (l : List ℕ) {b : ℕ} (hb : b ∈ l) (hkb : k ≤ b) :
    lbRank k l < l.length := by
  induction l with
  | nil => simp at hb
  | cons v vs ih =>
    simp only [lbRank, List.length_cons]
    split
    · omega
    · next hv =>
      rcases List.mem_cons.mp hb with h | h
      · omega
      · exact Nat.succ_lt_succ (ih h)

theorem firstRank_lt_length (k : ℕ) (l : List ℕ) (h : k ∈ l) :
    firstRank k l < l.length := by
  induction l with
  | nil => simp at h
  | cons v vs ih =>
    simp only [firstRank, List.length_cons]
    split
    · omega
    · next hv =>
      rcases List.mem_cons.mp h with h2 | h2
      · exact absurd h2.symm hv
      · exact Nat.succ_lt_succ (ih h2)

theorem firstRank_key (k : ℕ) (l : List ℕ) (h : k ∈ l) :
    l.getD (firstRank k l) 0 = k := by
  induction l with
  | nil => simp at h
  | cons v vs ih =>
    simp only [firstRank]
    split
    · next hv => simpa using hv
    · next hv =>
      simp only [List.getD_cons_succ]
      rcases List.mem_cons.mp h with h2 | h2
      · exact absurd h2.symm hv
      · exact ih h2

theorem lt_firstRank_ne (k : ℕ) (l : List ℕ) {i : ℕ} (h : i < firstRank k l) :
    l.getD i 0 ≠ k := by
  induction l generalizing i with
  | nil => simp [firstRank] at h
  | cons v vs ih =>
    simp only [firstRank] at h
    rcases hv : decide (v = k) with _ | _
    · simp only [decide_eq_false_iff_not] at hv
      rw [if_neg hv] at h
      match i with
      | 0 => simpa using hv
      | i + 1 =>
        simp only [List.getD_cons_succ]
        exact ih (by omega)
    · simp only [decide_eq_true_eq] at hv
      rw [if_pos hv] at h
      omega

theorem firstRank_eq_of_first (k : ℕ) (l : List ℕ) {j : ℕ}
    (hj : l.getD j 0 = k) (hfirst : ∀ i, i < j → l.getD i 0 ≠ k)
    (hlen : j < l.length) : firstRank k l = j := by
  induction l generalizing j with
  | nil => simp at hlen
  | cons v vs ih =>
    simp only [firstRank]
    match j with
    | 0 =>
      simp only [List.getD_cons_zero] at hj
      rw [if_pos hj]
    | j + 1 =>
      have hv : v ≠ k := by
        have := hfirst 0 (by omega)
        simpa using this
      rw [if_neg hv]
      refine congrArg _ (ih ?_ ?_ ?_)
      · simpa using hj
      · intro i hi
        have := hfirst (i + 1) (by omega)
        simpa using this
      · simpa using hlen

/-! ## The max-error invariant established by `fit` -/

/-- The accumulator of the max-error loop only grows. -/
theorem le_meAux (keys : List ℕ) (model : ℕ → ℕ) :
    ∀ j clb me, me ≤ meAux keys model j clb me := by
  intro j clb me
  induction j, clb, me using meAux.induct keys model
  case case1 j clb me hj clb2 pred ih =>
    rw [meAux.eq_def, dif_pos hj]
    exact le_trans (le_max_left _ _) ih
  case case2 j clb me hj =>
    rw [meAux.eq_def, dif_neg hj]

/-- Invariant of the max-error loop (lsi.hpp:183-193): entering iteration
`j` with `current_lower_bound` equal to the first rank of the key at rank
`j - 1`, the final accumulator bounds, for every remaining rank `i`, the
distance between the model prediction for the key at rank `i` and the
first rank of that key. -/
theorem meAux_ge (keys : List ℕ) (model : ℕ → ℕ)
    (hmono : ∀ i j, i ≤ j → j < keys.length → keys.getD i 0 ≤ keys.getD j 0) :
    ∀ j clb me, ((j = 0 ∧ clb = 0) ∨
      (0 < j ∧ j ≤ keys.length ∧ clb = firstRank (keys.getD (j - 1) 0) keys)) →
      ∀ i, j ≤ i → i < keys.length →
        max (model (keys.getD i 0)) (firstRank (keys.getD i 0) keys) -
          min (model (keys.getD i 0)) (firstRank (keys.getD i 0) keys) ≤
            meAux keys model j clb me := by
  intro j clb me
  induction j, clb, me using meAux.induct keys model
  case case1 j clb me hj clb2 pred ih =>
    intro hinv i hji hi
    have hclb2 : clb2 = firstRank (keys.getD j 0) keys := by
      show (if keys.getD clb 0 ≠ keys.getD j 0 then j else clb) = _
      rcases hinv with ⟨hj0, hc0⟩ | ⟨hjpos, hjle, hclb⟩
      · subst hj0; subst hc0
        rw [if_neg (by simp)]
        exact (firstRank_eq_of_first _ _ rfl (by omega) hj).symm
      · have hprev : keys.getD (j - 1) 0 ∈ keys := getD_mem (by omega)
        have hclbkey : keys.getD clb 0 = keys.getD (j - 1) 0 := by
          rw [hclb]; exact firstRank_key _ _ hprev
        by_cases hne : keys.getD clb 0 ≠ keys.getD j 0
        · rw [if_pos hne]
          refine (firstRank_eq_of_first _ _ rfl ?_ hj).symm
          intro i2 hi2
          have h1 : keys.getD i2 0 ≤ keys.getD (j - 1) 0 :=
            hmono i2 (j - 1) (by omega) (by omega)
          have h2 : keys.getD (j - 1) 0 ≤ keys.getD j 0 :=
            hmono (j - 1) j (by omega) hj
          have h3 : keys.getD (j - 1) 0 ≠ keys.getD j 0 := by
            rw [← hclbkey]; exact hne
          omega
        · rw [if_neg hne]
          push_neg at hne
          have heqk : keys.getD (j - 1) 0 = keys.getD j 0 := by
            rw [← hclbkey]; exact hne
          rw [hclb, heqk]
    rw [meAux.eq_def, dif_pos hj]
    rcases Nat.eq_or_lt_of_le hji with heq | hlt
    · subst heq
      rw [← hclb2]
      exact le_trans (le_max_right _ _) (le_meAux _ _ _ _ _)
    · have := ih (Or.inr ⟨by omega, by omega, by simpa using hclb2⟩) i (by omega) hi
      exact this
  case case2 j clb me hj =>
    intro _ i hji hi
    omega

/-- `fit`'s `max_error` bounds, for every key in the data, the distance
between the model prediction and the key's first (lower-bound) rank. -/
theorem fitMaxError_spec (keys : List ℕ) (model : ℕ → ℕ)
    (hmono : ∀ i j, i ≤ j → j < keys.length → keys.getD i 0 ≤ keys.getD j 0)
    (k : ℕ) (hk : k ∈ keys) :
    max (model k) (firstRank k keys) - min (model k) (firstRank k keys) ≤
      fitMaxError keys model := by
  have hfr := firstRank_lt_length k keys hk
  have hkey := firstRank_key k keys hk
  have := meAux_ge keys model hmono 0 0 0 (Or.inl ⟨rfl, rfl⟩)
    (firstRank k keys) (by omega) hfr
  rwa [hkey] at this

/-! ## Characterisation of the three search loops -/

theorem lt_lbRank_of_key_lt {keys : List ℕ}
    (hmono : ∀ i j, i ≤ j → j < keys.length → keys.getD i 0 ≤ keys.getD j 0)
    {k m : ℕ} (hm : m < keys.length) (hkey : keys.getD m 0 < k) :
    m < lbRank k keys := by
  by_contra hc
  push_neg at hc
  have hL : lbRank k keys < keys.length := by omega
  have h1 := lbRank_key k keys hL
  have h2 := hmono (lbRank k keys) m hc hm
  omega

theorem lbRank_le_of_le_key {keys : List ℕ} {k m : ℕ}
    (hkey : k ≤ keys.getD m 0) : lbRank k keys ≤ m := by
  by_contra hc
  push_neg at hc
  have := lt_lbRank_key k keys hc
  omega

/-- The binary-search loop converges to the lower bound of `k` inside the
window `[lo, hi)`, clamped to the window: `max lo (min (lbRank k keys) hi)`. -/
theorem binSearchGo_char (base pv keys : List ℕ)
    (hlen : keys.length = pv.length)
    (hk : ∀ i, i < pv.length → probe base pv i = some (keys.getD i 0))
    (hmono : ∀ i j, i ≤ j → j < keys.length → keys.getD i 0 ≤ keys.getD j 0)
    (k : ℕ) :
    ∀ n lo hi c, hi - lo ≤ n → hi ≤ pv.length →
      ∃ c2, binSearchGo base pv k lo hi c =
        some (max lo (min (lbRank k keys) hi), c2) := by
  intro n
  induction n with
  | zero =>
    intro lo hi c hn hhi
    rw [binSearchGo.eq_def, if_neg (by omega)]
    exact ⟨c, by rw [show max lo (min (lbRank k keys) hi) = lo by omega]⟩
  | succ n ih =>
    intro lo hi c hn hhi
    by_cases hlt : lo < hi
    · have hmid : lo ≤ lo + (hi - lo) / 2 ∧ lo + (hi - lo) / 2 < hi := by omega
      have hpm := hk (lo + (hi - lo) / 2) (by omega)
      rw [binSearchGo.eq_def, if_pos hlt]
      simp only []
      split
      · next heq => rw [hpm] at heq; exact absurd heq (by simp)
      · next v heq =>
        rw [hpm] at heq
        have hv : v = keys.getD (lo + (hi - lo) / 2) 0 := by
          simpa using heq.symm
        subst hv
        by_cases hcase : keys.getD (lo + (hi - lo) / 2) 0 < k
        · rw [if_pos hcase]
          have hmidL : lo + (hi - lo) / 2 < lbRank k keys :=
            lt_lbRank_of_key_lt hmono (by omega) hcase
          obtain ⟨c2, hrec⟩ := ih (lo + (hi - lo) / 2 + 1) hi (c + 1) (by omega) hhi
          have hmax : max (lo + (hi - lo) / 2 + 1) (min (lbRank k keys) hi) =
              max lo (min (lbRank k keys) hi) := by omega
          rw [hmax] at hrec
          exact ⟨c2, hrec⟩
        · rw [if_neg hcase]
          have hLm : lbRank k keys ≤ lo + (hi - lo) / 2 :=
            lbRank_le_of_le_key (by omega)
          obtain ⟨c2, hrec⟩ := ih lo (lo + (hi - lo) / 2) (c + 1) (by omega) (by omega)
          have hmax : max lo (min (lbRank k keys) (lo + (hi - lo) / 2)) =
              max lo (min (lbRank k keys) hi) := by omega
          rw [hmax] at hrec
          exact ⟨c2, hrec⟩
    · rw [binSearchGo.eq_def, if_neg hlt]
      exact ⟨c, by rw [show max lo (min (lbRank k keys) hi) = lo by omega]⟩

/-- The completion walk started inside the vector stops exactly at
`max i (lbRank k keys)`, counting one `incr_base_accesses()“ per advancing
step, and one extra uncounted read when it stops on a key `≥ k`. -/
theorem lbWalkGo_char (base pv keys : List ℕ)
    (hlen : keys.length = pv.length)
    (hk : ∀ i, i < pv.length → probe base pv i = some (keys.getD i 0))
    (hmono : ∀ i j, i ≤ j → j < keys.length → keys.getD i 0 ≤ keys.getD j 0)
    (k : ℕ) :
    ∀ n i c rd, pv.length - i ≤ n → i ≤ pv.length →
      lbWalkGo base pv k i c rd =
        some (max i (lbRank k keys), c + (max i (lbRank k keys) - i),
          rd + (max i (lbRank k keys) - i) +
            (if max i (lbRank k keys) < pv.length then 1 else 0)) := by
  have hL := lbRank_le_length k keys
  intro n
  induction n with
  | zero =>
    intro i c rd hn hile
    have hiN : i = pv.length := by omega
    have h1 : max i (lbRank k keys) = i := by omega
    rw [lbWalkGo.eq_def, if_pos hiN, h1, if_neg (by omega)]
    simp [Nat.sub_self]
  | succ n ih =>
    intro i c rd hn hile
    by_cases hiN : i = pv.length
    · have h1 : max i (lbRank k keys) = i := by omega
      rw [lbWalkGo.eq_def, if_pos hiN, h1, if_neg (by omega)]
      simp [Nat.sub_self]
    · have hilt : i < pv.length := by omega
      have hpi := hk i hilt
      rw [lbWalkGo.eq_def, if_neg hiN]
      split
      · next heq => rw [hpi] at heq; exact absurd heq (by simp)
      · next v heq =>
        rw [hpi] at heq
        have hv : v = keys.getD i 0 := by simpa using heq.symm
        subst hv
        by_cases hcase : keys.getD i 0 < k
        · rw [if_pos hcase]
          have hiL : i < lbRank k keys :=
            lt_lbRank_of_key_lt hmono (by omega) hcase
          rw [ih (i + 1) (c + 1) (rd + 1) (by omega) (by omega)]
          have h1 : max (i + 1) (lbRank k keys) = lbRank k keys := by omega
          have h2 : max i (lbRank k keys) = lbRank k keys := by omega
          rw [h1, h2]
          rcases Nat.lt_or_ge (lbRank k keys) pv.length with hc | hc
          · simp only [if_pos hc, Option.some.injEq, Prod.mk.injEq, true_and, and_true]
            omega
          · simp only [if_neg (Nat.not_lt.mpr hc), Option.some.injEq, Prod.mk.injEq, true_and, and_true]
            omega
        · rw [if_neg hcase]
          have hLi : lbRank k keys ≤ i := lbRank_le_of_le_key (by omega)
          have h1 : max i (lbRank k keys) = i := by omega
          rw [h1, if_pos hilt]
          simp [Nat.sub_self]

/-- A walk started past the end of the vector immediately dereferences an
out-of-bounds rank. -/
theorem lbWalkGo_oob (base pv : List ℕ) {i : ℕ} (hi : pv.length < i) (k c rd : ℕ) :
    lbWalkGo base pv k i c rd = none := by
  have hp : probe base pv i = none := by
    unfold probe
    rw [List.getElem?_eq_none_iff.mpr (by omega)]
    rfl
  rw [lbWalkGo.eq_def, if_neg (by omega)]
  split
  · rfl
  · next v heq => rw [hp] at heq; exact absurd heq (by simp)

/-- The bounded linear scan stops at the lower bound of `k` clamped to the
window `[i, stop)`, counting every read; a read that stops the scan is
counted but not a false positive. -/
theorem linScanGo_char (base pv keys : List ℕ)
    (hlen : keys.length = pv.length)
    (hk : ∀ i, i < pv.length → probe base pv i = some (keys.getD i 0))
    (hmono : ∀ i j, i ≤ j → j < keys.length → keys.getD i 0 ≤ keys.getD j 0)
    (k stop : ℕ) (hstop : stop ≤ pv.length) :
    ∀ n i c fp rd, stop - i ≤ n →
      linScanGo base pv k stop i c fp rd =
        some (max i (min (lbRank k keys) stop),
          c + (max i (min (lbRank k keys) stop) - i) +
            (if max i (min (lbRank k keys) stop) < stop then 1 else 0),
          fp + (max i (min (lbRank k keys) stop) - i),
          rd + (max i (min (lbRank k keys) stop) - i) +
            (if max i (min (lbRank k keys) stop) < stop then 1 else 0)) := by
  have hL := lbRank_le_length k keys
  intro n
  induction n with
  | zero =>
    intro i c fp rd hn
    have h1 : max i (min (lbRank k keys) stop) = i := by omega
    rw [linScanGo.eq_def, if_neg (by omega), h1, if_neg (by omega)]
    simp [Nat.sub_self]
  | succ n ih =>
    intro i c fp rd hn
    by_cases histop : i < stop
    · have hpi := hk i (by omega)
      rw [linScanGo.eq_def, if_pos histop]
      split
      · next heq => rw [hpi] at heq; exact absurd heq (by simp)
      · next v heq =>
        rw [hpi] at heq
        have hv : v = keys.getD i 0 := by simpa using heq.symm
        subst hv
        by_cases hcase : k ≤ keys.getD i 0
        · rw [if_pos hcase]
          have hLi : lbRank k keys ≤ i := lbRank_le_of_le_key (by omega)
          have h1 : max i (min (lbRank k keys) stop) = i := by omega
          rw [h1, if_pos histop]
          simp [Nat.sub_self]
        · rw [if_neg hcase]
          have hiL : i < lbRank k keys :=
            lt_lbRank_of_key_lt hmono (by omega) (by omega)
          rw [ih (i + 1) (c + 1) (fp + 1) (rd + 1) (by omega)]
          have h1 : max (i + 1) (min (lbRank k keys) stop) =
              max i (min (lbRank k keys) stop) := by omega
          rw [h1]
          rcases Nat.lt_or_ge (max i (min (lbRank k keys) stop)) stop with hc | hc
          · simp only [if_pos hc, Option.some.injEq, Prod.mk.injEq, true_and, and_true]
            omega
          · simp only [if_neg (Nat.not_lt.mpr hc), Option.some.injEq, Prod.mk.injEq, true_and, and_true]
            omega
    · have h1 : max i (min (lbRank k keys) stop) = i := by omega
      rw [linScanGo.eq_def, if_neg histop, h1, if_neg (by omega)]
      simp [Nat.sub_self]

/-- The final equality check at an in-bounds rank reads the base once
more without counting it, and returns `end()` exactly when the key there
differs from `k`. -/
theorem eqFinish_char (base pv keys : List ℕ)
    (hk : ∀ i, i < pv.length → probe base pv i = some (keys.getD i 0))
    {i : ℕ} (hi : i < pv.length) (k c rd : ℕ) :
    eqFinish base pv k i c rd =
      some (if keys.getD i 0 = k then i else pv.length, c, rd + 1) := by
  unfold eqFinish
  rw [hk i hi]
  show (if keys.getD i 0 ≠ k then some (pv.length, c, rd + 1)
    else some (i, c, rd + 1)) = _
  by_cases h : keys.getD i 0 = k
  · rw [if_neg (not_not_intro h), if_pos h]
  · rw [if_pos h, if_neg h]

/-- The final equality check at rank `N` (or beyond) dereferences the
permutation vector out of bounds. -/
theorem eqFinish_oob (base pv : List ℕ) {i : ℕ} (hi : pv.length ≤ i) (k c rd : ℕ) :
    eqFinish base pv k i c rd = none := by
  have hp : probe base pv i = none := by
    unfold probe
    rw [List.getElem?_eq_none_iff.mpr hi]
    rfl
  unfold eqFinish
  rw [hp]

/-! ## Assembling the four lookup configurations -/

theorem lookup_binary_lb_def (base pv : List ℕ) (model : ℕ → ℕ) (me k : ℕ) :
    lookup false true base pv model me k =
      match binSearchGo base pv k (searchLo (model k) me)
          (searchHi (model k) me pv.length) 0 with
      | none => none
      | some (st, c) =>
        (lbWalkGo base pv k st c c).map fun x => (x.1, x.2.1, 0, x.2.2) := by
  rcases h : binSearchGo base pv k (searchLo (model k) me)
    (searchHi (model k) me pv.length) 0 with _ | ⟨st, c⟩ <;>
    simp only [lookup] <;> rw [h] <;> rfl

theorem lookup_binary_eq_def (base pv : List ℕ) (model : ℕ → ℕ) (me k : ℕ) :
    lookup false false base pv model me k =
      match binSearchGo base pv k (searchLo (model k) me)
          (searchHi (model k) me pv.length) 0 with
      | none => none
      | some (st, c) =>
        (eqFinish base pv k st c c).map fun x => (x.1, x.2.1, 0, x.2.2) := by
  rcases h : binSearchGo base pv k (searchLo (model k) me)
    (searchHi (model k) me pv.length) 0 with _ | ⟨st, c⟩ <;>
    simp only [lookup] <;> rw [h] <;> rfl

theorem lookup_linear_lb_def (base pv : List ℕ) (model : ℕ → ℕ) (me k : ℕ) :
    lookup true true base pv model me k =
      match linScanGo base pv k (searchHi (model k) me pv.length)
          (searchLo (model k) me) 0 0 0 with
      | none => none
      | some (i, c, fp, rd) =>
        (lbWalkGo base pv k i c rd).map fun x => (x.1, x.2.1, fp, x.2.2) := by
  rcases h : linScanGo base pv k (searchHi (model k) me pv.length)
    (searchLo (model k) me) 0 0 0 with _ | ⟨i, c, fp, rd⟩ <;>
    simp only [lookup] <;> rw [h] <;> rfl

theorem lookup_linear_eq_def (base pv : List ℕ) (model : ℕ → ℕ) (me k : ℕ) :
    lookup true false base pv model me k =
      match linScanGo base pv k (searchHi (model k) me pv.length)
          (searchLo (model k) me) 0 0 0 with
      | none => none
      | some (i, c, fp, rd) =>
        (eqFinish base pv k i c rd).map fun x => (x.1, x.2.1, fp, x.2.2) := by
  rcases h : linScanGo base pv k (searchHi (model k) me pv.length)
    (searchLo (model k) me) 0 0 0 with _ | ⟨i, c, fp, rd⟩ <;>
    simp only [lookup] <;> rw [h] <;> rfl

/-- Binary-mode lower-bound lookup: whenever the window start is inside
the vector, the returned rank is the lower bound of `k` clamped from
below by the window start, and no out-of-bounds access happens. -/
theorem lookup_binary_lb_rank (base pv keys : List ℕ)
    (hlen : keys.length = pv.length)
    (hk : ∀ i, i < pv.length → probe base pv i = some (keys.getD i 0))
    (hmono : ∀ i j, i ≤ j → j < keys.length → keys.getD i 0 ≤ keys.getD j 0)
    (model : ℕ → ℕ) (me k : ℕ)
    (hlo : searchLo (model k) me ≤ pv.length) :
    rankOf (lookup false true base pv model me k) =
      some (max (searchLo (model k) me) (lbRank k keys)) := by
  have hL := lbRank_le_length k keys
  have hhi : searchHi (model k) me pv.length ≤ pv.length := min_le_right _ _
  obtain ⟨c2, hbin⟩ := binSearchGo_char base pv keys hlen hk hmono k
    (searchHi (model k) me pv.length - searchLo (model k) me)
    (searchLo (model k) me) (searchHi (model k) me pv.length) 0 (le_refl _) hhi
  obtain ⟨S, hbin2, hSdef⟩ :
      ∃ S, binSearchGo base pv k (searchLo (model k) me)
          (searchHi (model k) me pv.length) 0 = some (S, c2) ∧
        S = max (searchLo (model k) me)
          (min (lbRank k keys) (searchHi (model k) me pv.length)) :=
    ⟨_, hbin, rfl⟩
  have hres : lookup false true base pv model me k =
      (lbWalkGo base pv k S c2 c2).map fun x => (x.1, x.2.1, 0, x.2.2) := by
    rw [lookup_binary_lb_def, hbin2]
  have hS : S ≤ pv.length := by omega
  rw [hres, lbWalkGo_char base pv keys hlen hk hmono k pv.length S c2 c2 (by omega) hS]
  simp only [rankOf, Option.map_map, Option.map_some', Option.some.injEq,
    Function.comp_apply]
  omega

/-- S5 helper: for a fitted (key-sorted, in-bounds) permutation vector the
forced-linear and binary configurations return the same rank, in both
lower-bound and equality modes, including agreement on whether an
out-of-bounds access occurs. -/
theorem lookup_modes_agree (base pv keys : List ℕ)
    (hlen : keys.length = pv.length)
    (hk : ∀ i, i < pv.length → probe base pv i = some (keys.getD i 0))
    (hmono : ∀ i j, i ≤ j → j < keys.length → keys.getD i 0 ≤ keys.getD j 0)
    (model : ℕ → ℕ) (me k : ℕ) (lb : Bool) :
    rankOf (lookup true lb base pv model me k) =
      rankOf (lookup false lb base pv model me k) := by
  have hL := lbRank_le_length k keys
  have hhi : searchHi (model k) me pv.length ≤ pv.length := min_le_right _ _
  obtain ⟨c2, hbin⟩ := binSearchGo_char base pv keys hlen hk hmono k
    (searchHi (model k) me pv.length - searchLo (model k) me)
    (searchLo (model k) me) (searchHi (model k) me pv.length) 0 (le_refl _) hhi
  have hscan := linScanGo_char base pv keys hlen hk hmono k
    (searchHi (model k) me pv.length) hhi
    (searchHi (model k) me pv.length - searchLo (model k) me)
    (searchLo (model k) me) 0 0 0 (le_refl _)
  obtain ⟨S, cS, fpS, rdS, hscan2, hSdef⟩ :
      ∃ S cS fpS rdS, linScanGo base pv k (searchHi (model k) me pv.length)
          (searchLo (model k) me) 0 0 0 = some (S, cS, fpS, rdS) ∧
        S = max (searchLo (model k) me)
          (min (lbRank k keys) (searchHi (model k) me pv.length)) :=
    ⟨_, _, _, _, hscan, rfl⟩
  have hbin2 : binSearchGo base pv k (searchLo (model k) me)
      (searchHi (model k) me pv.length) 0 = some (S, c2) := by
    rw [hbin, hSdef]
  cases lb
  case true =>
    have hlin : lookup true true base pv model me k =
        (lbWalkGo base pv k S cS rdS).map fun x => (x.1, x.2.1, fpS, x.2.2) := by
      rw [lookup_linear_lb_def, hscan2]
    have hbinr : lookup false true base pv model me k =
        (lbWalkGo base pv k S c2 c2).map fun x => (x.1, x.2.1, 0, x.2.2) := by
      rw [lookup_binary_lb_def, hbin2]
    rw [hlin, hbinr]
    by_cases hS : S ≤ pv.length
    · rw [lbWalkGo_char base pv keys hlen hk hmono k pv.length S cS rdS (by omega) hS,
        lbWalkGo_char base pv keys hlen hk hmono k pv.length S c2 c2 (by omega) hS]
      rfl
    · rw [lbWalkGo_oob base pv (by omega) k cS rdS,
        lbWalkGo_oob base pv (by omega) k c2 c2]
      rfl
  case false =>
    have hlin : lookup true false base pv model me k =
        (eqFinish base pv k S cS rdS).map fun x => (x.1, x.2.1, fpS, x.2.2) := by
      rw [lookup_linear_eq_def, hscan2]
    have hbinr : lookup false false base pv model me k =
        (eqFinish base pv k S c2 c2).map fun x => (x.1, x.2.1, 0, x.2.2) := by
      rw [lookup_binary_eq_def, hbin2]
    rw [hlin, hbinr]
    by_cases hS : S < pv.length
    · rw [eqFinish_char base pv keys hk hS k cS rdS,
        eqFinish_char base pv keys hk hS k c2 c2]
      rfl
    · rw [eqFinish_oob base pv (by omega) k cS rdS,
        eqFinish_oob base pv (by omega) k c2 c2]
      rfl

/-! ## Counting base reads against the access counters -/

/-- In the completion walk, every advancing step is counted, but the read
made by the final failing loop test (present exactly when the walk stops
at a rank `< N`) is not. -/
theorem lbWalkGo_counts (base pv : List ℕ) (k : ℕ) :
    ∀ i c rd, ∀ r c2 rd2, lbWalkGo base pv k i c rd = some (r, c2, rd2) →
      rd2 + c = rd + c2 + (if r < pv.length then 1 else 0) := by
  intro i c rd
  induction i, c, rd using lbWalkGo.induct base pv k
  case case1 c rd =>
    intro r c2 rd2 h
    rw [lbWalkGo.eq_def, if_pos rfl] at h
    simp only [Option.some.injEq, Prod.mk.injEq] at h
    rw [if_neg (by omega)]
    omega
  case case2 i c rd hiN hp =>
    intro r c2 rd2 h
    rw [lbWalkGo.eq_def, if_neg hiN] at h
    split at h
    · exact absurd h (by simp)
    · next v heq =>
      rw [hp] at heq
      exact absurd heq (by simp)
  case case3 i c rd hiN v hp hv ih =>
    intro r c2 rd2 h
    rw [lbWalkGo.eq_def, if_neg hiN] at h
    split at h
    · exact absurd h (by simp)
    · next v2 heq =>
      rw [hp] at heq
      have hv2 : v2 = v := by simpa using heq.symm
      subst hv2
      rw [if_pos hv] at h
      have := ih r c2 rd2 h
      omega
  case case4 i c rd hiN v hp hv =>
    intro r c2 rd2 h
    rw [lbWalkGo.eq_def, if_neg hiN] at h
    split at h
    · exact absurd h (by simp)
    · next v2 heq =>
      rw [hp] at heq
      have hv2 : v2 = v := by simpa using heq.symm
      subst hv2
      rw [if_neg hv] at h
      simp only [Option.some.injEq, Prod.mk.injEq] at h
      have hr : r = i := by omega
      have : i < pv.length := probe_some_lt hp
      rw [if_pos (by omega)]
      omega

/-- In the bounded linear scan every base read is counted. -/
theorem linScanGo_counts (base pv : List ℕ) (k stop : ℕ) :
    ∀ i c fp rd, ∀ r c2 fp2 rd2,
      linScanGo base pv k stop i c fp rd = some (r, c2, fp2, rd2) →
        rd2 + c = rd + c2 := by
  intro i c fp rd
  induction i, c, fp, rd using linScanGo.induct base pv k stop
  case case1 i c fp rd histop hp =>
    intro r c2 fp2 rd2 h
    rw [linScanGo.eq_def, if_pos histop] at h
    split at h
    · exact absurd h (by simp)
    · next v heq => rw [hp] at heq; exact absurd heq (by simp)
  case case2 i c fp rd histop v hp hv =>
    intro r c2 fp2 rd2 h
    rw [linScanGo.eq_def, if_pos histop] at h
    split at h
    · exact absurd h (by simp)
    · next v2 heq =>
      rw [hp] at heq
      have hv2 : v2 = v := by simpa using heq.symm
      subst hv2
      rw [if_pos hv] at h
      simp only [Option.some.injEq, Prod.mk.injEq] at h
      omega
  case case3 i c fp rd histop v hp hv ih =>
    intro r c2 fp2 rd2 h
    rw [linScanGo.eq_def, if_pos histop] at h
    split at h
    · exact absurd h (by simp)
    · next v2 heq =>
      rw [hp] at heq
      have hv2 : v2 = v := by simpa using heq.symm
      subst hv2
      rw [if_neg hv] at h
      have := ih r c2 fp2 rd2 h
      omega
  case case4 i c fp rd histop =>
    intro r c2 fp2 rd2 h
    rw [linScanGo.eq_def, if_neg histop] at h
    simp only [Option.some.injEq, Prod.mk.injEq] at h
    omega

/-- The final equality check performs one read and counts nothing. -/
theorem eqFinish_counts (base pv : List ℕ) (k i c rd r c2 rd2 : ℕ)
    (h : eqFinish base pv k i c rd = some (r, c2, rd2)) :
    c2 = c ∧ rd2 = rd + 1 := by
  unfold eqFinish at h
  rcases hp : probe base pv i with _ | v <;> rw [hp] at h
  · have h2 : (none : Option (ℕ × ℕ × ℕ)) = some (r, c2, rd2) := h
    exact absurd h2 (by simp)
  · have h2 : (if v ≠ k then some (pv.length, c, rd + 1)
        else some (i, c, rd + 1)) = some (r, c2, rd2) := h
    by_cases hv : v ≠ k
    · rw [if_pos hv] at h2
      simp only [Option.some.injEq, Prod.mk.injEq] at h2
      omega
    · rw [if_neg hv] at h2
      simp only [Option.some.injEq, Prod.mk.injEq] at h2
      omega

/-! ## PermVector equality and the lookup iterator comparison -/

/-- `util::PermVector` (permvector.hpp) abstracted by its element count
`_size` and the decoded contents of its bit-packed byte buffer `_data`
(the offsets lane; fingerprint lane absent for `fingerprint_size = 0`).
The packing of a given offsets sequence is deterministic, so equal
offsets yield byte-identical buffers. -/
structure PermVector where
  size : ℕ
  offsets : List ℕ
deriving DecidableEq

/-- `PermVector::operator==` (permvector.hpp:185-187):
`a._data == b._data && a._size == b._size` — equality of the byte buffer
by value, and of the element count.  No addresses are compared. -/
def pvEq (a b : PermVector) : Bool :=
  (a.offsets == b.offsets) && (a.size == b.size)

/-- `LearnedSecondaryIndex::PermIter::operator==` (lsi.hpp:265-267):
`a._index == b._index && a._perm_vector == b._perm_vector`, where the
second conjunct is `PermVector::operator==`, i.e. value equality of the
underlying vectors, not object identity. -/
def permIterEq (a b : ℕ × PermVector) : Bool :=
  (a.1 == b.1) && pvEq a.2 b.2

/-- `PermVector::build` (permvector.hpp:119-158) on the sorted
displacement pairs: stores the original positions in rank order. -/
def buildPV (s : List (ℕ × ℕ)) : PermVector :=
  { size := s.length, offsets := pvOf s }

/-! ## The index object with its debug counters -/

/-- The mutable state of a `LearnedSecondaryIndex` object: the permutation
vector, the trained model, `max_error`, and the two debug counters
(lsi.hpp:31-38). -/
structure LSIState where
  pv : List ℕ
  model : ℕ → ℕ
  maxError : ℕ
  baseDataAccesses : ℕ
  falsePositiveAccesses : ℕ

/-- `LearnedSecondaryIndex::fit` (lsi.hpp:148-194) as a state transformer:
given the sorted displacement buffer `s` (a `SortOutput` of the data) and
the freshly trained model, it rebuilds `_perm_vector`, `_model` and
`max_error` and touches nothing else; in particular neither debug counter
is assigned anywhere in its body. -/
def fit (st : LSIState) (s : List (ℕ × ℕ)) (m : ℕ → ℕ) : LSIState :=
  { pv := pvOf s
    model := m
    maxError := fitMaxError (keysOf s) m
    baseDataAccesses := st.baseDataAccesses
    falsePositiveAccesses := st.falsePositiveAccesses }

/-- A lookup on the index object: runs `lookup` against the stored state
and adds the `incr_base_accesses()` / `incr_false_positives()` increments
to the two counters (lsi.hpp:301-317); the counters are never assigned,
only incremented. -/
def lookupSt (linear lb : Bool) (base : List ℕ) (k : ℕ) (st : LSIState) :
    Option ℕ × LSIState :=
  match lookup linear lb base st.pv st.model st.maxError k with
  | none => (none, st)
  | some (r, c, fp, _) =>
    (some r, { st with baseDataAccesses := st.baseDataAccesses + c
                       falsePositiveAccesses := st.falsePositiveAccesses + fp })

/-! ## The claims -/

instance instDecidableSortOutput (data : List ℕ) (s : List (ℕ × ℕ)) :
    Decidable (SortOutput data s) := by
  unfold SortOutput pairsOf
  exact instDecidableAnd

/-- C2: after `fit` on any (non-empty) range, for every key `k` occurring
in the data, the first rank of `k` — the smallest rank `r` with
`key_at(pv[r].position) = k` — lies within
`[model(k) - max_error, model(k) + max_error]`, saturating at `0` (by
truncated subtraction) and at `N` (the first rank is `< N`): the
`max_error` computed by `fit` bounds the distance between the model's
prediction and the lower-bound rank of every indexed key. -/
theorem C2_model_error_invariant (data : List ℕ) (s : List (ℕ × ℕ))
    (model : ℕ → ℕ) (k : ℕ) (hs : SortOutput data s) (hk : k ∈ data) :
    model k - fitMaxError (keysOf s) model ≤ firstRank k (keysOf s) ∧
    firstRank k (keysOf s) ≤ model k + fitMaxError (keysOf s) model ∧
    firstRank k (keysOf s) < s.length ∧
    probe data (pvOf s) (firstRank k (keysOf s)) = some k ∧
    (∀ r, r < firstRank k (keysOf s) → probe data (pvOf s) r ≠ some k) := by
  have hkk : k ∈ keysOf s := hs.keys_perm.mem_iff.mpr hk
  have hmono : ∀ i j, i ≤ j → j < (keysOf s).length →
      (keysOf s).getD i 0 ≤ (keysOf s).getD j 0 := by
    intro i j hij hj
    exact keyAt_mono hs hij (by rwa [keysOf_length] at hj)
  have hdist := fitMaxError_spec (keysOf s) model hmono k hkk
  have hfr := firstRank_lt_length k (keysOf s) hkk
  have hkey := firstRank_key k (keysOf s) hkk
  have hfrs : firstRank k (keysOf s) < s.length := by rwa [keysOf_length] at hfr
  refine ⟨by omega, by omega, hfrs, ?_, ?_⟩
  · rw [probe_fit hs hfrs, hkey]
  · intro r hr hcon
    have hrs : r < s.length := by omega
    rw [probe_fit hs hrs] at hcon
    have : (keysOf s).getD r 0 = k := by simpa using hcon
    exact lt_firstRank_ne k (keysOf s) hr this

theorem C2_model_error_invariant_witness :
    SortOutput [3, 3, 7] [(3, 0), (3, 1), (7, 2)] ∧ (3 : ℕ) ∈ [3, 3, 7] ∧
    probe [3, 3, 7] (pvOf [(3, 0), (3, 1), (7, 2)])
      (firstRank 3 (keysOf [(3, 0), (3, 1), (7, 2)])) = some 3 :=
  ⟨by decide, by decide,
    (C2_model_error_invariant [3, 3, 7] [(3, 0), (3, 1), (7, 2)]
      (fun x => if x = 3 then 0 else 2) 3 (by decide) (by decide)).2.2.2.1⟩

/-- C3 counterexample: `std::sort` is not stable, and its postcondition
admits a sorted output for the data `[5, 5]` in which the two equal keys
keep their original positions in descending order: `pv[0].position = 1`
and `pv[1].position = 0`, so `pv[r].position < pv[r+1].position` fails on
a conforming execution. -/
theorem C3_stable_ties_cex :
    SortOutput [5, 5] [(5, 1), (5, 0)] ∧
    keysOf [(5, 1), (5, 0)] = [5, 5] ∧
    pvOf [(5, 1), (5, 0)] = [1, 0] ∧
    ¬((pvOf [(5, 1), (5, 0)]).getD 0 0 < (pvOf [(5, 1), (5, 0)]).getD 1 0) :=
  ⟨by decide, rfl, rfl, by decide⟩

/-- C3 (amended): after `fit`, adjacent ranks carry non-decreasing keys,
and the stored offsets are exactly the original positions `0..N-1` (as a
permutation); for equal adjacent keys the relative order of the two
positions is unspecified, because the sort in `fit` is `std::sort`, which
is not stable. -/
theorem C3_sorted_ranks (data : List ℕ) (s : List (ℕ × ℕ))
    (hs : SortOutput data s) :
    (∀ r, r + 1 < s.length →
      (keysOf s).getD r 0 ≤ (keysOf s).getD (r + 1) 0) ∧
    (pvOf s).Perm (List.range data.length) := by
  constructor
  · intro r hr
    exact keyAt_mono hs (by omega) (by omega)
  · have h1 := hs.1.map Prod.snd
    rw [show (pairsOf data).map Prod.snd = pvOf (pairsOf data) from rfl,
      pairsOf, pvOf_pairsFrom, ← List.range_eq_range'] at h1
    exact h1

theorem C3_sorted_ranks_witness :
    SortOutput [5, 5] [(5, 0), (5, 1)] ∧
    (pvOf [(5, 0), (5, 1)]).Perm (List.range 2) :=
  ⟨by decide, (C3_sorted_ranks [5, 5] [(5, 0), (5, 1)] (by decide)).2⟩

/-- C5: on a fitted index (any sorted displacement buffer, any trained
model and any max_error), for every query key and in both equality and
lower-bound modes, the forced-linear configuration
(`force_linear_search = true`, `fingerprint_size = 0`) returns an iterator
at the same rank as the binary-search configuration
(`force_linear_search = false`, `fingerprint_size = 0`); the two modes
also agree on whether an out-of-bounds access occurs. -/
theorem C5_linear_binary_equivalent (data : List ℕ) (s : List (ℕ × ℕ))
    (model : ℕ → ℕ) (me k : ℕ) (lb : Bool) (hs : SortOutput data s) :
    rankOf (lookup true lb data (pvOf s) model me k) =
      rankOf (lookup false lb data (pvOf s) model me k) := by
  apply lookup_modes_agree data (pvOf s) (keysOf s)
  · rw [keysOf_length, pvOf_length]
  · intro i hi
    exact probe_fit hs (by rwa [pvOf_length] at hi)
  · intro i j hij hj
    exact keyAt_mono hs hij (by rwa [keysOf_length] at hj)

theorem C5_linear_binary_equivalent_witness :
    SortOutput [4, 2, 9] [(2, 1), (4, 0), (9, 2)] ∧
    rankOf (lookup true true [4, 2, 9] (pvOf [(2, 1), (4, 0), (9, 2)])
        (fun _ => 1) 1 5) =
      rankOf (lookup false true [4, 2, 9] (pvOf [(2, 1), (4, 0), (9, 2)])
        (fun _ => 1) 1 5) :=
  ⟨by decide, C5_linear_binary_equivalent [4, 2, 9] [(2, 1), (4, 0), (9, 2)]
    (fun _ => 1) 1 5 true (by decide)⟩

/-- C6: `lookup` computes the search interval start as
`pred - min(pred, max_error)` (that expression is `searchLo`), which
equals `max(pred - max_error, 0)` over the integers — no wrap-around below
zero — and the exclusive end as `min(pred + max_error + 1, N)` in unsigned
arithmetic (`searchHi`), which never exceeds `N`; when the 64-bit addition
does not overflow the end is exactly `min(pred + max_error + 1, N)`. -/
theorem C6_interval_saturation (pred me n : ℕ) :
    ((searchLo pred me : ℤ) = max ((pred : ℤ) - (me : ℤ)) 0) ∧
    searchHi pred me n ≤ n ∧
    (pred + me + 1 < W64 → searchHi pred me n = min (pred + me + 1) n) := by
  refine ⟨?_, min_le_right _ _, ?_⟩
  · unfold searchLo
    omega
  · intro h
    unfold searchHi
    rw [Nat.mod_eq_of_lt h]

theorem C6_interval_saturation_witness :
    (5 : ℕ) + 3 + 1 < W64 ∧
    searchHi 5 3 2 = min (5 + 3 + 1) 2 ∧
    (searchLo 5 3 : ℤ) = max ((5 : ℤ) - 3) 0 := by
  have h : (5 : ℕ) + 3 + 1 < W64 := by norm_num [W64]
  exact ⟨h, (C6_interval_saturation 5 3 2).2.2 h, (C6_interval_saturation 5 3 2).1⟩

/-- C7 counterexample: a binary-mode equality lookup of the (present) key
10 on the index fitted over `[10]` with an exact model performs two reads
of `base[pv[i].position]` — one binary probe and the final equality check
— but increments `base_data_accesses` only once: the final equality
check's read is not counted. -/
theorem C7_access_counting_cex :
    SortOutput [10] [(10, 0)] ∧
    fitMaxError (keysOf [(10, 0)]) (fun _ => 0) = 0 ∧
    lookup false false [10] (pvOf [(10, 0)]) (fun _ => 0) 0 10 =
      some (0, 1, 0, 2) ∧
    (1 : ℕ) ≠ 2 := by
  refine ⟨by decide, ?_, ?_, by decide⟩
  · simp [fitMaxError, meAux, keysOf]
  · simp [lookup, searchLo, searchHi, W64, binSearchGo, eqFinish, probe, pvOf]

/-- C7 (amended): `base_data_accesses` is incremented once per probe of
the bounded linear scan and of the binary search, and once per advancing
step of the lower-bound completion walk; the read performed by the walk's
final failing loop test (present exactly when the returned rank is `< N`)
and the read of the final equality check are not counted.  So on every
defined lookup: in lower-bound mode `reads = counted + (1 if rank < N)`,
and in equality mode `reads = counted + 1`, in both linear and binary
configurations. -/
theorem C7_access_accounting (linear : Bool) (base pv : List ℕ)
    (model : ℕ → ℕ) (me k : ℕ) :
    (∀ r c fp rd, lookup linear true base pv model me k = some (r, c, fp, rd) →
      rd = c + (if r < pv.length then 1 else 0)) ∧
    (∀ r c fp rd, lookup linear false base pv model me k = some (r, c, fp, rd) →
      rd = c + 1) := by
  cases linear
  case false =>
    constructor
    · intro r c fp rd h
      rw [lookup_binary_lb_def] at h
      split at h
      · exact absurd h (by simp)
      · next st cb _heq =>
        rcases hw : lbWalkGo base pv k st cb cb with _ | ⟨r2, c2, rd2⟩ <;>
          rw [hw] at h
        · exact absurd h (by simp)
        · have hcnt := lbWalkGo_counts base pv k st cb cb r2 c2 rd2 hw
          simp only [Option.map_some', Option.some.injEq, Prod.mk.injEq] at h
          obtain ⟨h1, h2, _h3, h4⟩ := h
          rw [h1] at hcnt
          by_cases hr : r < pv.length
          · rw [if_pos hr]; rw [if_pos hr] at hcnt; omega
          · rw [if_neg hr]; rw [if_neg hr] at hcnt; omega
    · intro r c fp rd h
      rw [lookup_binary_eq_def] at h
      split at h
      · exact absurd h (by simp)
      · next st cb _heq =>
        rcases hw : eqFinish base pv k st cb cb with _ | ⟨r2, c2, rd2⟩ <;>
          rw [hw] at h
        · exact absurd h (by simp)
        · have hcnt := eqFinish_counts base pv k st cb cb r2 c2 rd2 hw
          simp only [Option.map_some', Option.some.injEq, Prod.mk.injEq] at h
          obtain ⟨h1, h2, _h3, h4⟩ := h
          subst h2; subst h4
          omega
  case true =>
    constructor
    · intro r c fp rd h
      rw [lookup_linear_lb_def] at h
      split at h
      · exact absurd h (by simp)
      · next i1 c1 fp1 rd1 heq =>
        have hscnt := linScanGo_counts base pv k (searchHi (model k) me pv.length)
          (searchLo (model k) me) 0 0 0 i1 c1 fp1 rd1 heq
        rcases hw : lbWalkGo base pv k i1 c1 rd1 with _ | ⟨r2, c2, rd2⟩ <;>
          rw [hw] at h
        · exact absurd h (by simp)
        · have hcnt := lbWalkGo_counts base pv k i1 c1 rd1 r2 c2 rd2 hw
          simp only [Option.map_some', Option.some.injEq, Prod.mk.injEq] at h
          obtain ⟨h1, h2, _h3, h4⟩ := h
          rw [h1] at hcnt
          by_cases hr : r < pv.length
          · rw [if_pos hr]; rw [if_pos hr] at hcnt; omega
          · rw [if_neg hr]; rw [if_neg hr] at hcnt; omega
    · intro r c fp rd h
      rw [lookup_linear_eq_def] at h
      split at h
      · exact absurd h (by simp)
      · next i1 c1 fp1 rd1 heq =>
        have hscnt := linScanGo_counts base pv k (searchHi (model k) me pv.length)
          (searchLo (model k) me) 0 0 0 i1 c1 fp1 rd1 heq
        rcases hw : eqFinish base pv k i1 c1 rd1 with _ | ⟨r2, c2, rd2⟩ <;>
          rw [hw] at h
        · exact absurd h (by simp)
        · have hcnt := eqFinish_counts base pv k i1 c1 rd1 r2 c2 rd2 hw
          simp only [Option.map_some', Option.some.injEq, Prod.mk.injEq] at h
          obtain ⟨h1, h2, _h3, h4⟩ := h
          subst h2; subst h4
          omega

theorem C7_access_accounting_witness :
    lookup false false [10] [0] (fun _ => 0) 0 10 = some (0, 1, 0, 2) ∧
    (2 : ℕ) = 1 + 1 :=
  ⟨by simp [lookup, searchLo, searchHi, W64, binSearchGo, eqFinish, probe],
    (C7_access_accounting false [10] [0] (fun _ => 0) 0 10).2 0 1 0 2
      (by simp [lookup, searchLo, searchHi, W64, binSearchGo, eqFinish, probe])⟩

/-- C8 counterexample: the LSI lookup-iterator comparison
(`PermIter::operator==`, lsi.hpp:265-267) delegates to
`PermVector::operator==`, which compares the byte buffer and the size by
value — no address is consulted — so the comparison is a function of rank
and buffer contents alone.  Iterators at the same rank over byte-identical
permutation buffers of the same size therefore compare equal (`true`
below), including iterators of two distinct index objects fitted on the
same data; the claim asserts they are never equal. -/
theorem C8_iterator_identity_cex :
    SortOutput [7, 9] [(7, 0), (9, 1)] ∧
    permIterEq (0, buildPV [(7, 0), (9, 1)]) (0, buildPV [(7, 0), (9, 1)]) = true :=
  ⟨by decide, by decide⟩

/-- C8 (amended): two LSI lookup iterators compare equal iff they hold the
same rank and their underlying PermVectors are equal by value (equal
decoded buffer contents and equal element count); object identity plays no
role in the comparison. -/
theorem C8_iterator_eq_value (i j : ℕ) (a b : PermVector) :
    permIterEq (i, a) (j, b) = true ↔
      i = j ∧ a.offsets = b.offsets ∧ a.size = b.size := by
  unfold permIterEq pvEq
  simp [Bool.and_eq_true, beq_iff_eq, and_assoc]

theorem C8_iterator_eq_value_witness :
    permIterEq (3, buildPV [(7, 0), (9, 1)]) (3, buildPV [(7, 0), (9, 1)]) = true :=
  (C8_iterator_eq_value 3 3 (buildPV [(7, 0), (9, 1)])
    (buildPV [(7, 0), (9, 1)])).mpr ⟨rfl, rfl, rfl⟩

/-- C10: calling `fit` again on an already-fitted index rebuilds the
permutation vector, the model and `max_error`, but leaves
`base_data_accesses` and `false_positive_accesses` unchanged; a lookup
only ever adds its increments to the two counters.  The counters are never
reset by any operation and accumulate for the lifetime of the object. -/
theorem C10_counters_persist (st : LSIState) (s : List (ℕ × ℕ)) (m : ℕ → ℕ) :
    (fit st s m).pv = pvOf s ∧ (fit st s m).model = m ∧
    (fit st s m).maxError = fitMaxError (keysOf s) m ∧
    (fit st s m).baseDataAccesses = st.baseDataAccesses ∧
    (fit st s m).falsePositiveAccesses = st.falsePositiveAccesses ∧
    ∀ (linear lb : Bool) (base : List ℕ) (k : ℕ),
      st.baseDataAccesses ≤ (lookupSt linear lb base k st).2.baseDataAccesses ∧
      st.falsePositiveAccesses ≤ (lookupSt linear lb base k st).2.falsePositiveAccesses := by
  refine ⟨rfl, rfl, rfl, rfl, rfl, ?_⟩
  intro linear lb base k
  unfold lookupSt
  rcases hl : lookup linear lb base st.pv st.model st.maxError k with _ | ⟨r, c, fp, rd⟩
  · exact ⟨le_refl _, le_refl _⟩
  · exact ⟨Nat.le_add_right _ _, Nat.le_add_right _ _⟩

/-- A model for the C1 counterexample: exact on the data keys 10 and 20
(so `fit` computes `max_error = 0`) but not monotone — it predicts rank 5
for the absent in-range key 15. -/
def wildModel : ℕ → ℕ :=
  fun x => if x = 10 then 0 else if x = 20 then 1 else 5

/-- C1 counterexample: on the index fitted over `[10, 20]` with
`wildModel` (`max_error = 0`), the lower-bound lookup of the in-range
query 15 computes the window `[5, 2)`, skips the binary search, and starts
the completion walk at rank 5; the walk's `ind != end()` test passes
(5 ≠ 2) and it dereferences the permutation vector at rank 5 — out of
bounds — instead of returning an iterator `it` with `base[*it] ≥ 15`.
The claim fails for a fitted index whose model is not monotone. -/
theorem C1_lower_bound_cex :
    SortOutput [10, 20] [(10, 0), (20, 1)] ∧
    (10 : ℕ) ≤ 15 ∧ (15 : ℕ) ≤ 20 ∧
    fitMaxError (keysOf [(10, 0), (20, 1)]) wildModel = 0 ∧
    rankOf (lookup false true [10, 20] (pvOf [(10, 0), (20, 1)]) wildModel
      (fitMaxError (keysOf [(10, 0), (20, 1)]) wildModel) 15) = none := by
  have hme : fitMaxError (keysOf [(10, 0), (20, 1)]) wildModel = 0 := by
    simp [fitMaxError, meAux, keysOf, wildModel]
  refine ⟨by decide, by decide, by decide, hme, ?_⟩
  rw [hme, show pvOf [(10, 0), (20, 1)] = [0, 1] from rfl]
  have hbin : binSearchGo [10, 20] [0, 1] 15 (searchLo (wildModel 15) 0)
      (searchHi (wildModel 15) 0 ([0, 1] : List ℕ).length) 0 = some (5, 0) := by
    rw [show searchLo (wildModel 15) 0 = 5 by norm_num [searchLo, wildModel],
      show searchHi (wildModel 15) 0 ([0, 1] : List ℕ).length = 2 by
        norm_num [searchHi, W64, wildModel],
      binSearchGo.eq_def, if_neg (by norm_num)]
  rw [lookup_binary_lb_def, hbin]
  show rankOf ((lbWalkGo [10, 20] [0, 1] 15 5 0 0).map
    fun x => (x.1, x.2.1, 0, x.2.2)) = none
  rw [lbWalkGo_oob [10, 20] [0, 1] (by norm_num) 15 0 0]
  rfl

/-- C1 (amended): for every fitted index whose trained model is monotone
in the key, and any query key `k` in `[min_key, max_key]`, the
lower-bound lookup returns the iterator at the lower-bound rank of `k`:
`base[*it] ≥ k` and, if `it > begin()`, `base[*(it-1)] < k`; and for `k`
greater than the maximum indexed key it returns `end()` provided the
model's prediction for `k` is at most `N + max_error` (an unconstrained
prediction can instead send the completion walk out of bounds, see the
counterexample). -/
theorem C1_lower_bound_correct (data : List ℕ) (s : List (ℕ × ℕ))
    (model : ℕ → ℕ) (k : ℕ) (hs : SortOutput data s)
    (hmodel : Monotone model) :
    ((∃ a ∈ data, a ≤ k) → (∃ b ∈ data, k ≤ b) →
      rankOf (lookup false true data (pvOf s) model
          (fitMaxError (keysOf s) model) k) = some (lbRank k (keysOf s)) ∧
      (∃ v, probe data (pvOf s) (lbRank k (keysOf s)) = some v ∧ k ≤ v) ∧
      (∀ r, r + 1 = lbRank k (keysOf s) →
        ∃ w, probe data (pvOf s) r = some w ∧ w < k)) ∧
    ((∀ a ∈ data, a < k) →
      model k ≤ s.length + fitMaxError (keysOf s) model →
      rankOf (lookup false true data (pvOf s) model
          (fitMaxError (keysOf s) model) k) = some s.length) := by
  have hklen : (keysOf s).length = s.length := keysOf_length s
  have hpvlen : (pvOf s).length = s.length := pvOf_length s
  have hmono : ∀ i j, i ≤ j → j < (keysOf s).length →
      (keysOf s).getD i 0 ≤ (keysOf s).getD j 0 := by
    intro i j hij hj
    exact keyAt_mono hs hij (by omega)
  have hlen2 : (keysOf s).length = (pvOf s).length := by omega
  have hprobe : ∀ i, i < (pvOf s).length →
      probe data (pvOf s) i = some ((keysOf s).getD i 0) := by
    intro i hi
    exact probe_fit hs (by omega)
  constructor
  · intro _hmin hmax
    obtain ⟨b, hbmem, hbk⟩ := hmax
    have hb2 : b ∈ keysOf s := hs.keys_perm.mem_iff.mpr hbmem
    have hLlt : lbRank k (keysOf s) < (keysOf s).length :=
      lbRank_lt_length k (keysOf s) hb2 hbk
    have hkkp : k ≤ (keysOf s).getD (lbRank k (keysOf s)) 0 :=
      lbRank_key k (keysOf s) hLlt
    have hkp_mem : (keysOf s).getD (lbRank k (keysOf s)) 0 ∈ keysOf s :=
      getD_mem hLlt
    have hfr : firstRank ((keysOf s).getD (lbRank k (keysOf s)) 0) (keysOf s) =
        lbRank k (keysOf s) := by
      refine firstRank_eq_of_first _ _ rfl ?_ hLlt
      intro i hi
      have := lt_lbRank_key k (keysOf s) hi
      omega
    have hdist := fitMaxError_spec (keysOf s) model hmono _ hkp_mem
    rw [hfr] at hdist
    have hpred : model k ≤ model ((keysOf s).getD (lbRank k (keysOf s)) 0) :=
      hmodel hkkp
    have hlo : searchLo (model k) (fitMaxError (keysOf s) model) ≤
        lbRank k (keysOf s) := by
      unfold searchLo
      omega
    have hrank := lookup_binary_lb_rank data (pvOf s) (keysOf s) hlen2 hprobe
      hmono model (fitMaxError (keysOf s) model) k (by omega)
    rw [show max (searchLo (model k) (fitMaxError (keysOf s) model))
        (lbRank k (keysOf s)) = lbRank k (keysOf s) by omega] at hrank
    refine ⟨hrank, ⟨_, hprobe _ (by omega), hkkp⟩, ?_⟩
    intro r hr
    refine ⟨_, hprobe r (by omega), ?_⟩
    exact lt_lbRank_key k (keysOf s) (by omega)
  · intro hall hpredbound
    have hallk : ∀ v ∈ keysOf s, v < k := by
      intro v hv
      exact hall v (hs.keys_perm.mem_iff.mp hv)
    have hL : lbRank k (keysOf s) = (keysOf s).length :=
      lbRank_eq_length k (keysOf s) hallk
    have hlo : searchLo (model k) (fitMaxError (keysOf s) model) ≤
        (pvOf s).length := by
      unfold searchLo
      omega
    have hrank := lookup_binary_lb_rank data (pvOf s) (keysOf s) hlen2 hprobe
      hmono model (fitMaxError (keysOf s) model) k hlo
    rw [show max (searchLo (model k) (fitMaxError (keysOf s) model))
        (lbRank k (keysOf s)) = s.length by omega] at hrank
    exact hrank

theorem C1_lower_bound_correct_witness :
    SortOutput [0, 1] [(0, 0), (1, 1)] ∧
    (∃ a ∈ [0, 1], a ≤ 1) ∧ (∃ b ∈ [0, 1], (1 : ℕ) ≤ b) ∧
    rankOf (lookup false true [0, 1] (pvOf [(0, 0), (1, 1)]) (fun x => x)
        (fitMaxError (keysOf [(0, 0), (1, 1)]) (fun x => x)) 1) =
      some (lbRank 1 (keysOf [(0, 0), (1, 1)])) :=
  ⟨by decide, by decide, by decide,
    ((C1_lower_bound_correct [0, 1] [(0, 0), (1, 1)] (fun x => x) 1 (by decide)
      (fun _ _ h => h)).1 (by decide) (by decide)).1⟩

/-- A model for the C9 counterexample: exact on the single data key 5
(`max_error = 0`) but predicting rank 9 for every other key. -/
def farModel : ℕ → ℕ :=
  fun x => if x = 5 then 0 else 9

/-- C9 counterexample: on the index fitted over `[5]` with `farModel`
(`max_error = 0`), the lower-bound lookup of 7 — a key greater than every
indexed key — computes `start_i = 9 > N = 1`; the bounded scan interval is
empty, and the completion walk's `ind != end()` test passes (9 ≠ 1), so
the walk dereferences the permutation vector at rank 9, an access at a
rank `≥ N`, instead of reaching `end()` without one. -/
theorem C9_lower_bound_cex :
    SortOutput [5] [(5, 0)] ∧
    (∀ a ∈ [5], a < 7) ∧
    fitMaxError (keysOf [(5, 0)]) farModel = 0 ∧
    rankOf (lookup false true [5] (pvOf [(5, 0)]) farModel
      (fitMaxError (keysOf [(5, 0)]) farModel) 7) = none := by
  have hme : fitMaxError (keysOf [(5, 0)]) farModel = 0 := by
    simp [fitMaxError, meAux, keysOf, farModel]
  refine ⟨by decide, by decide, hme, ?_⟩
  rw [hme, show pvOf [(5, 0)] = [0] from rfl]
  have hbin : binSearchGo [5] [0] 7 (searchLo (farModel 7) 0)
      (searchHi (farModel 7) 0 ([0] : List ℕ).length) 0 = some (9, 0) := by
    rw [show searchLo (farModel 7) 0 = 9 by norm_num [searchLo, farModel],
      show searchHi (farModel 7) 0 ([0] : List ℕ).length = 1 by
        norm_num [searchHi, W64, farModel],
      binSearchGo.eq_def, if_neg (by norm_num)]
  rw [lookup_binary_lb_def, hbin]
  show rankOf ((lbWalkGo [5] [0] 7 9 0 0).map
    fun x => (x.1, x.2.1, 0, x.2.2)) = none
  rw [lbWalkGo_oob [5] [0] (by norm_num) 7 0 0]
  rfl

/-- C9 (amended): whenever the model's prediction for the query key is at
most `N + max_error`, the lower-bound lookup never touches the permutation
vector at a rank `≥ N`: the bounded search stays below
`min(pred + max_error + 1, N)`, the completion walk's `ind != end()` guard
stops at rank `N`, the result is defined (no out-of-bounds access) with a
rank `≤ N`, and for a key greater than every indexed key it is exactly
`end()` (rank `N`).  A prediction beyond `N + max_error` instead puts the
walk's starting rank past `N`, where the guard passes and rank `≥ N` is
dereferenced (see the counterexample). -/
theorem C9_lower_bound_in_bounds (data : List ℕ) (s : List (ℕ × ℕ))
    (model : ℕ → ℕ) (k : ℕ) (hs : SortOutput data s)
    (hpred : model k ≤ s.length + fitMaxError (keysOf s) model) :
    (∃ r, rankOf (lookup false true data (pvOf s) model
        (fitMaxError (keysOf s) model) k) = some r ∧ r ≤ s.length) ∧
    ((∀ a ∈ data, a < k) →
      rankOf (lookup false true data (pvOf s) model
        (fitMaxError (keysOf s) model) k) = some s.length) := by
  have hklen : (keysOf s).length = s.length := keysOf_length s
  have hpvlen : (pvOf s).length = s.length := pvOf_length s
  have hL := lbRank_le_length k (keysOf s)
  have hmono : ∀ i j, i ≤ j → j < (keysOf s).length →
      (keysOf s).getD i 0 ≤ (keysOf s).getD j 0 := by
    intro i j hij hj
    exact keyAt_mono hs hij (by omega)
  have hprobe : ∀ i, i < (pvOf s).length →
      probe data (pvOf s) i = some ((keysOf s).getD i 0) := by
    intro i hi
    exact probe_fit hs (by omega)
  have hlo : searchLo (model k) (fitMaxError (keysOf s) model) ≤
      (pvOf s).length := by
    unfold searchLo
    omega
  have hrank := lookup_binary_lb_rank data (pvOf s) (keysOf s) (by omega) hprobe
    hmono model (fitMaxError (keysOf s) model) k hlo
  constructor
  · exact ⟨_, hrank, by omega⟩
  · intro hall
    have hallk : ∀ v ∈ keysOf s, v < k := by
      intro v hv
      exact hall v (hs.keys_perm.mem_iff.mp hv)
    have hLeq : lbRank k (keysOf s) = (keysOf s).length :=
      lbRank_eq_length k (keysOf s) hallk
    rw [show max (searchLo (model k) (fitMaxError (keysOf s) model))
        (lbRank k (keysOf s)) = s.length by omega] at hrank
    exact hrank

theorem C9_lower_bound_in_bounds_witness :
    SortOutput [5] [(5, 0)] ∧
    (fun _ : ℕ => 0) 7 ≤ 1 + fitMaxError (keysOf [(5, 0)]) (fun _ => 0) ∧
    (∀ a ∈ [5], a < 7) ∧
    rankOf (lookup false true [5] (pvOf [(5, 0)]) (fun _ => 0)
      (fitMaxError (keysOf [(5, 0)]) (fun _ => 0)) 7) = some 1 := by
  have hp : (fun _ : ℕ => 0) 7 ≤ 1 + fitMaxError (keysOf [(5, 0)]) (fun _ => 0) := by
    exact Nat.zero_le _
  exact ⟨by decide, hp, by decide,
    (C9_lower_bound_in_bounds [5] [(5, 0)] (fun _ => 0) 7 (by decide) hp).2
      (by decide)⟩

/-- A monotone model that is exact on the data keys 10 and 20 of the C4
failing input (`fit` computes `max_error = 0`). -/
def clampedModel : ℕ → ℕ :=
  fun x => if x ≤ 10 then 0 else 1

/-- C4 (code bug): the equality lookup's final check
`if (*(begin + *ind) != key) return end();` (lsi.hpp:356-360, 385-389)
dereferences `pv[ind]` without first testing `ind != end()`.  For a query
key greater than every indexed key the search interval ends at `N` and the
search settles on rank `N`, so the check reads the permutation vector out
of bounds — undefined behaviour — instead of returning `end()`; on an
index fitted on an empty range every equality lookup does so immediately.
Here: the index fitted over `[10, 20]` with an exact monotone model,
equality query 30 (absent, above max); and the empty index, query 5. -/
theorem C4_eq_lookup_oob :
    SortOutput [10, 20] [(10, 0), (20, 1)] ∧
    fitMaxError (keysOf [(10, 0), (20, 1)]) clampedModel = 0 ∧
    lookup false false [10, 20] (pvOf [(10, 0), (20, 1)]) clampedModel
      (fitMaxError (keysOf [(10, 0), (20, 1)]) clampedModel) 30 = none ∧
    lookup false false [] [] clampedModel
      (fitMaxError (keysOf []) clampedModel) 5 = none := by
  have hme : fitMaxError (keysOf [(10, 0), (20, 1)]) clampedModel = 0 := by
    simp [fitMaxError, meAux, keysOf, clampedModel]
  refine ⟨by decide, hme, ?_, ?_⟩
  · rw [hme]
    simp [lookup, searchLo, searchHi, W64, binSearchGo, eqFinish,
      probe, pvOf, clampedModel]
  · have hme0 : fitMaxError (keysOf ([] : List (ℕ × ℕ))) clampedModel = 0 := by
      simp [fitMaxError, meAux, keysOf]
    rw [hme0]
    simp [lookup, searchLo, searchHi, W64, binSearchGo, eqFinish,
      probe, clampedModel]
